import Mathlib

/-!
# libmidiproc: `MIDIContainer.h`

A shallow embedding of the inline code of `src/MIDIContainer.h` (the port-number table, the
container constructor, the metadata item copy operations and the enumerations), together with
models of the two routines that the header only declares (`EncodeVariableLengthQuantity`,
`TempoMap::TimestampToMS`).

Conventions.
* C++ unsigned integers are natural numbers; a conversion to an unsigned type of `w` bits is
  `% 2 ^ w`, written out wherever the source converts.
* A `std::vector<T>` is a `List`.
* A method that mutates its object returns the new object; a reference parameter that is
  written is returned as a component of the result.
-/

namespace MIDIProc

/-! ## Port numbers (`MIDIContainer::LimitPortNumber`) -/

/-- The search loop shared by both overloads of `LimitPortNumber`:
`for (size_t i = start; i < ports.size(); ++i) if (ports[i] == number) return i;`
The first argument is the part of `_PortNumbers` not yet visited and `i` the index of its head.
`none` means the loop ran to the end without hitting the `return`. -/
def findPortIndex (number : Nat) : List Nat → Nat → Option Nat
  | [], _ => none
  | x :: rest, i => if x = number then some i else findPortIndex number rest (i + 1)

/-- The non-const `template <typename T> void LimitPortNumber(T & number)` for an unsigned
integer type `T` of `w` bits. The argument `ports` is `_PortNumbers` (a vector of `uint8_t`)
before the call; the result is `_PortNumbers` and `number` after the call.
* hit at index `i`: `number = (T) i`;
* no hit: `_PortNumbers.push_back((uint8_t) number); number = _PortNumbers.size() - 1;`. -/
def LimitPortNumber (w : Nat) (ports : List Nat) (number : Nat) : List Nat × Nat :=
  match findPortIndex number ports 0 with
  | some i => (ports, i % 2 ^ w)
  | none =>
    let pushed := ports ++ [number % 2 ^ 8]
    (pushed, (pushed.length - 1) % 2 ^ w)

/-- The const overload `template <typename T> void LimitPortNumber(T & number) const`: the same
loop, and nothing after it. The result is `_PortNumbers` (which a const method cannot change)
and `number` after the call. -/
def LimitPortNumberConst (w : Nat) (ports : List Nat) (number : Nat) : List Nat × Nat :=
  match findPortIndex number ports 0 with
  | some i => (ports, i % 2 ^ w)
  | none => (ports, number)

/-- The table `_PortNumbers` after a sequence of non-const `LimitPortNumber` calls on a
container whose table starts as `start`; each call is given as the pair of the bit width of
its `T` and the value of `number`. -/
def portTableAfter (start : List Nat) (calls : List (Nat × Nat)) : List Nat :=
  calls.foldl (fun table call => (LimitPortNumber call.1 table call.2).1) start

/-- A table of 257 bytes: 256 entries `0`, then the entry `1` at index 256. -/
def longTable : List Nat := List.replicate 256 0 ++ [1]

/-- A table of 257 bytes: 256 entries `7`, then the entry `9` at index 256. -/
def longTableConst : List Nat := List.replicate 256 7 ++ [9]

/-- Every entry of the table fits its element type `uint8_t`. -/
def IsByteTable (ports : List Nat) : Prop := ∀ x ∈ ports, x < 2 ^ 8

instance (ports : List Nat) : Decidable (IsByteTable ports) := by
  unfold IsByteTable
  infer_instance

/-! ## Enumerations -/

/-- The enumeration `StatusCodes`. -/
inductive StatusCodes where
  | NoteOff | NoteOn | PolyphonicAftertouch | ControlChange | ProgramChange
  | ChannelPressureAftertouch | PitchBendChange
  | SysEx | MIDITimeCodeQtrFrame | SongPositionPointer | SongSelect
  | TuneRequest | SysExEnd | TimingClock
  | Start | Continue | Stop
  | ActiveSensing | MetaData
  deriving DecidableEq, Repr

/-- The enumerator values of `StatusCodes`, as the header assigns them. -/
def StatusCodes.value : StatusCodes → Nat
  | .NoteOff => 0x80
  | .NoteOn => 0x90
  | .PolyphonicAftertouch => 0xA0
  | .ControlChange => 0xB0
  | .ProgramChange => 0xC0
  | .ChannelPressureAftertouch => 0xD0
  | .PitchBendChange => 0xE0
  | .SysEx => 0xF0
  | .MIDITimeCodeQtrFrame => 0xF1
  | .SongPositionPointer => 0xF2
  | .SongSelect => 0xF3
  | .TuneRequest => 0xF6
  | .SysExEnd => 0xF7
  | .TimingClock => 0xF8
  | .Start => 0xFA
  | .Continue => 0xFB
  | .Stop => 0xFC
  | .ActiveSensing => 0xFE
  | .MetaData => 0xFF

/-- The enumeration `EventType`. -/
inductive EventType where
  | NoteOffE | NoteOnE | PolyphonicAftertouchE | ControlChangeE | ProgramChangeE
  | ChannelPressureAftertouchE | PitchBendChangeE | Extended
  deriving DecidableEq, Repr

/-- The enumerator values of `EventType`: `NoteOffE = 0`, and each later enumerator is one
more than the one before it. -/
def EventType.value : EventType → Nat
  | .NoteOffE => 0
  | .NoteOnE => 1
  | .PolyphonicAftertouchE => 2
  | .ControlChangeE => 3
  | .ProgramChangeE => 4
  | .ChannelPressureAftertouchE => 5
  | .PitchBendChangeE => 6
  | .Extended => 7

/-- The status byte written in the comment behind each enumerator of `EventType`
(`// x080`, `// x090`, ..., `// x0F0`). -/
def EventType.documentedStatus : EventType → Nat
  | .NoteOffE => 0x080
  | .NoteOnE => 0x090
  | .PolyphonicAftertouchE => 0x0A0
  | .ControlChangeE => 0x0B0
  | .ProgramChangeE => 0x0C0
  | .ChannelPressureAftertouchE => 0x0D0
  | .PitchBendChangeE => 0x0E0
  | .Extended => 0x0F0

/-- The enumerator of `StatusCodes` that carries the name of an `EventType` enumerator without
its `E` suffix; `Extended`, which has no namesake, is paired with `SysEx`. -/
def EventType.statusCode : EventType → StatusCodes
  | .NoteOffE => .NoteOff
  | .NoteOnE => .NoteOn
  | .PolyphonicAftertouchE => .PolyphonicAftertouch
  | .ControlChangeE => .ControlChange
  | .ProgramChangeE => .ProgramChange
  | .ChannelPressureAftertouchE => .ChannelPressureAftertouch
  | .PitchBendChangeE => .PitchBendChange
  | .Extended => .SysEx

/-- The enumerators of `EventType` in the order of their declaration. -/
def EventType.allTypes : List EventType :=
  [.NoteOffE, .NoteOnE, .PolyphonicAftertouchE, .ControlChangeE, .ProgramChangeE,
    .ChannelPressureAftertouchE, .PitchBendChangeE, .Extended]

/-- The three enumerators of the anonymous clean-flag enumeration of `MIDIContainer`. -/
inductive CleanFlag where
  | CleanFlagEMIDI | CleanFlagInstruments | CleanFlagBanks
  deriving DecidableEq, Repr

/-- The enumerator values: `1 << 0`, `1 << 1`, `1 << 2`. -/
def CleanFlag.value : CleanFlag → Nat
  | .CleanFlagEMIDI => 1 <<< 0
  | .CleanFlagInstruments => 1 <<< 1
  | .CleanFlagBanks => 1 <<< 2

/-- The `cleanFlags` word that has the flags of `flags` switched on: their bitwise OR. -/
def cleanFlagsOf (flags : List CleanFlag) : Nat :=
  flags.foldr (fun f word => f.value ||| word) 0

/-- The test `cleanFlags & flag` of a flag's bit. -/
def hasCleanFlag (cleanFlags : Nat) (f : CleanFlag) : Bool :=
  cleanFlags &&& f.value != 0

/-! ## Data types -/

/-- The struct `MIDIEvent`. -/
structure MIDIEvent where
  Timestamp : Nat
  Type' : EventType
  ChannelNumber : Nat
  Data : List Nat
  deriving DecidableEq, Repr

/-- The class `MIDITrack`. -/
structure MIDITrack where
  _Events : List MIDIEvent
  deriving DecidableEq, Repr

/-- The struct `TempoItem`. -/
structure TempoItem where
  Timestamp : Nat
  Tempo : Nat
  deriving DecidableEq, Repr

/-- The class `TempoMap`. -/
structure TempoMap where
  _Items : List TempoItem
  deriving DecidableEq, Repr

/-- The struct `MIDIMetaDataItem`. -/
structure MIDIMetaDataItem where
  Timestamp : Nat
  Name : String
  Value : String
  deriving DecidableEq, Repr

/-- The class `MIDIMetaData`. -/
structure MIDIMetaData where
  _Items : List MIDIMetaDataItem
  _Bitmap : List Nat
  deriving DecidableEq, Repr

/-- The class `MIDIContainer`. `Range` is the type declared in `Range.h`. -/
structure MIDIContainer (Range : Type) where
  _Format : Nat
  _TimeDivision : Nat
  _ExtraPercussionChannel : Nat
  _ChannelMask : List Nat
  _TempoMaps : List TempoMap
  _Tracks : List MIDITrack
  _PortNumbers : List Nat
  _DeviceNames : List (List String)
  _ExtraMetaData : MIDIMetaData
  _EndTimestamps : List Nat
  _Loop : List Range

/-! ## The container constructor and its accessors -/

/-- The C++ expression `~x` on a 32-bit `unsigned int`. -/
def complement32 (x : Nat) : Nat := 2 ^ 32 - 1 - x % 2 ^ 32

/-- The call `v.resize(n)` of `std::vector`: keep the first `n` elements, and fill up to `n`
with value-initialised elements `fresh`. -/
def vectorResize {α : Type} (v : List α) (n : Nat) (fresh : α) : List α :=
  v.take n ++ List.replicate (n - v.length) fresh

/-- The constructor
`MIDIContainer(void) : _Format(0), _TimeDivision(0), _ExtraPercussionChannel(~0u)`
with body `_DeviceNames.resize(16);`. The members without an initialiser are
default-constructed, that is, empty. -/
def MIDIContainer.new (Range : Type) : MIDIContainer Range where
  _Format := 0
  _TimeDivision := 0
  _ExtraPercussionChannel := complement32 0
  _ChannelMask := []
  _TempoMaps := []
  _Tracks := []
  _PortNumbers := []
  _DeviceNames := vectorResize [] 16 []
  _ExtraMetaData := MIDIMetaData.mk [] []
  _EndTimestamps := []
  _Loop := []

/-- The accessor `uint32_t Size(void) const { return _Tracks.size(); }`. -/
def MIDIContainer.Size {Range : Type} (c : MIDIContainer Range) : Nat :=
  c._Tracks.length % 2 ^ 32

/-- The accessor `GetExtraPercussionChannel`. -/
def MIDIContainer.GetExtraPercussionChannel {Range : Type} (c : MIDIContainer Range) : Nat :=
  c._ExtraPercussionChannel

/-! ## Copying a `MIDIMetaDataItem` -/

/-- The assignment `operator=(const MIDIMetaDataItem & other)`: all three members are taken
from `other`. The first argument is `*this` before the assignment. -/
def MIDIMetaDataItem.assignConst (_self other : MIDIMetaDataItem) : MIDIMetaDataItem where
  Timestamp := other.Timestamp
  Name := other.Name
  Value := other.Value

/-- The copy constructor `MIDIMetaDataItem(const MIDIMetaDataItem & item)`; its body is the
same three assignments, run on the freshly default-constructed members. -/
def MIDIMetaDataItem.copyConst (item : MIDIMetaDataItem) : MIDIMetaDataItem where
  Timestamp := item.Timestamp
  Name := item.Name
  Value := item.Value

/-- The assignment `operator=(MIDIMetaDataItem & other)`:
`Timestamp = other.Timestamp;` and then, depending on the preprocessor branch,
`Name = (Name); Value = (Value);` or `Name = std::move(Name); Value = std::move(Value);`.
Both branches assign each string member of `*this` to itself. `selfAssign` is what such an
assignment leaves in the string: the identity for the first branch, and for the second branch
whatever the standard library leaves in a string moved onto itself. -/
def MIDIMetaDataItem.assignNonConst (selfAssign : String → String)
    (self other : MIDIMetaDataItem) : MIDIMetaDataItem where
  Timestamp := other.Timestamp
  Name := selfAssign self.Name
  Value := selfAssign self.Value

/-- The copy constructor `MIDIMetaDataItem(MIDIMetaDataItem & item) { operator=(item); }`:
the non-const assignment run on a new object, whose strings are empty and whose `Timestamp`
has no initialiser (`garbage`). -/
def MIDIMetaDataItem.copyNonConst (selfAssign : String → String) (garbage : Nat)
    (item : MIDIMetaDataItem) : MIDIMetaDataItem :=
  MIDIMetaDataItem.assignNonConst selfAssign (MIDIMetaDataItem.mk garbage "" "") item

/-! ## Variable-length quantities -/

/-- Modelled from the spec: the length of an encoding, "the minimal byte length required"
out of "1–4 bytes" of 7 payload bits each. -/
def vlqByteCount (v : Nat) : Nat :=
  if v < 0x80 then 1 else if v < 0x4000 then 2 else if v < 0x200000 then 3 else 4

/-- Modelled from the spec: byte `i` (counted from 0) of the `count`-byte encoding of `v`,
that is, the 7-bit group `i`, "most-significant byte first", with the "continuation bit (0x80)
set on every byte except the last". -/
def vlqByte (v count i : Nat) : Nat :=
  let group := (v >>> (7 * (count - 1 - i))) &&& 0x7F
  if i + 1 < count then group ||| 0x80 else group

/-- Modelled from the spec: the body of `MIDIContainer::EncodeVariableLengthQuantity`, which
the header only declares. The spec: "encode an unsigned 28-bit-max value into 1–4 bytes, 7
payload bits per byte, most-significant byte first, continuation bit (0x80) set on every byte
except the last", of "the minimal byte length required"; a value above `0x0FFFFFFF` is
"reject[ed] at the point of ... encoding rather than silently truncat[ed]" (`none`). The bytes
are pushed onto the back of `data`. -/
def EncodeVariableLengthQuantity (data : List Nat) (delta : Nat) : Option (List Nat) :=
  if delta > 0x0FFFFFFF then none
  else some (data ++ (List.range (vlqByteCount delta)).map (vlqByte delta (vlqByteCount delta)))

/-- Modelled from the spec: the reader of a variable-length quantity, which belongs to the
producer and not to the container. It accumulates the low 7 bits of each byte, most
significant group first, until a byte with bit `0x80` clear has been taken. The result is the
value and the bytes behind the quantity; `none` when the bytes end inside a quantity. -/
def decodeVariableLengthQuantity (value : Nat) : List Nat → Option (Nat × List Nat)
  | [] => none
  | b :: rest =>
    let value' := (value <<< 7) ||| (b &&& 0x7F)
    if b &&& 0x80 = 0 then some (value', rest) else decodeVariableLengthQuantity value' rest

/-! ## Tick to millisecond conversion -/

set_option maxRecDepth 8192

/-! ### Lemmas on the search loop -/

theorem findPortIndex_eq_none {number : Nat} {ports : List Nat} {i : Nat} :
    findPortIndex number ports i = none ↔ number ∉ ports := by
  induction ports generalizing i with
  | nil => simp [findPortIndex]
  | cons x rest ih =>
    by_cases hx : x = number
    · simp [findPortIndex, hx]
    · have hx2 : ¬ number = x := fun h => hx h.symm
      simp [findPortIndex, hx, hx2, ih]

/-- A hit of the loop is the first position holding `number`: the entry there is `number`
and no earlier entry is. -/
theorem findPortIndex_eq_some {number : Nat} {ports : List Nat} {i j : Nat}
    (h : findPortIndex number ports i = some j) :
    i ≤ j ∧ j - i < ports.length ∧ ports[j - i]? = some number ∧
      ∀ k, k < j - i → ports[k]? ≠ some number := by
  induction ports generalizing i with
  | nil => simp [findPortIndex] at h
  | cons x rest ih =>
    by_cases hx : x = number
    · simp [findPortIndex, hx] at h
      subst h
      simp [hx]
    · simp only [findPortIndex, hx, if_false] at h
      obtain ⟨h1, h2, h3, h4⟩ := ih h
      have hji : j - i = (j - (i + 1)) + 1 := by omega
      refine ⟨by omega, ?_, ?_, ?_⟩
      · simp only [List.length_cons]; omega
      · rw [hji, List.getElem?_cons_succ]; exact h3
      · intro k hk
        cases k with
        | zero => simp [hx]
        | succ k =>
          rw [List.getElem?_cons_succ]
          exact h4 k (by omega)

/-- When the loop misses on `ports`, it hits a freshly pushed `number` at the old size. -/
theorem findPortIndex_append_self {number : Nat} {ports : List Nat} {i : Nat}
    (h : findPortIndex number ports i = none) :
    findPortIndex number (ports ++ [number]) i = some (i + ports.length) := by
  induction ports generalizing i with
  | nil => simp [findPortIndex]
  | cons x rest ih =>
    by_cases hx : x = number
    · simp [findPortIndex, hx] at h
    · simp only [findPortIndex, hx, if_false, List.cons_append, List.length_cons] at h ⊢
      have hrec := ih h
      simp only [List.append_eq] at hrec ⊢
      rw [hrec]
      congr 1
      omega

/-- A duplicate-free table of bytes has at most 256 entries. -/
theorem length_le_of_nodup_bytes {ports : List Nat} (hb : IsByteTable ports)
    (hnd : ports.Nodup) : ports.length ≤ 256 := by
  have hsub : ports ⊆ List.range 256 := by
    intro x hx
    have := hb x hx
    simp only [List.mem_range]
    omega
  have := (List.subperm_of_subset hnd hsub).length_le
  simpa using this

/-- A duplicate-free table of bytes that misses some byte has at most 255 entries. -/
theorem length_lt_of_nodup_bytes_not_mem {ports : List Nat} {p : Nat} (hb : IsByteTable ports)
    (hnd : ports.Nodup) (hp : p < 256) (hmem : p ∉ ports) : ports.length < 256 := by
  have hb2 : IsByteTable (p :: ports) := by
    intro x hx
    rcases List.mem_cons.mp hx with h | h
    · subst h; omega
    · exact hb x h
  have := length_le_of_nodup_bytes hb2 (List.nodup_cons.mpr ⟨hmem, hnd⟩)
  simp only [List.length_cons] at this
  omega

/-! ### Lemmas on `LimitPortNumber` -/

theorem LimitPortNumber_of_hit {w : Nat} {ports : List Nat} {number i : Nat}
    (h : findPortIndex number ports 0 = some i) :
    LimitPortNumber w ports number = (ports, i % 2 ^ w) := by
  simp [LimitPortNumber, h]

theorem LimitPortNumber_of_miss {w : Nat} {ports : List Nat} {number : Nat}
    (h : findPortIndex number ports 0 = none) :
    LimitPortNumber w ports number =
      (ports ++ [number % 2 ^ 8], ports.length % 2 ^ w) := by
  simp [LimitPortNumber, h]

theorem LimitPortNumber_nodup {w : Nat} {ports : List Nat} {p : Nat} (hp : p < 2 ^ 8)
    (hnd : ports.Nodup) : (LimitPortNumber w ports p).1.Nodup := by
  cases hf : findPortIndex p ports 0 with
  | some i => rw [LimitPortNumber_of_hit hf]; exact hnd
  | none =>
    rw [LimitPortNumber_of_miss hf]
    have hmem : p ∉ ports := findPortIndex_eq_none.mp hf
    have hmod : p % 2 ^ 8 = p := Nat.mod_eq_of_lt hp
    simp only [hmod]
    exact List.Nodup.append hnd (List.nodup_singleton p) (by simpa using hmem)

theorem LimitPortNumber_isByteTable {w : Nat} {ports : List Nat} (number : Nat)
    (hb : IsByteTable ports) : IsByteTable (LimitPortNumber w ports number).1 := by
  cases hf : findPortIndex number ports 0 with
  | some i => rw [LimitPortNumber_of_hit hf]; exact hb
  | none =>
    rw [LimitPortNumber_of_miss hf]
    intro x hx
    rcases List.mem_append.mp hx with h | h
    · exact hb x h
    · have hx2 : x = number % 2 ^ 8 := by simpa using h
      rw [hx2]
      exact Nat.mod_lt _ (by norm_num)

/-- Tables grown by calls with 8-bit values keep distinct byte entries. -/
theorem portTableAfter_invariant (calls : List (Nat × Nat)) :
    ∀ start : List Nat, (∀ c ∈ calls, c.2 < 2 ^ 8) → IsByteTable start → start.Nodup →
      IsByteTable (portTableAfter start calls) ∧ (portTableAfter start calls).Nodup := by
  induction calls with
  | nil => intro start _ hb hnd; exact ⟨hb, hnd⟩
  | cons c rest ih =>
    intro start hc hb hnd
    have hc1 : c.2 < 2 ^ 8 := hc c (List.mem_cons_self _ _)
    have hrest : ∀ d ∈ rest, d.2 < 2 ^ 8 := fun d hd => hc d (List.mem_cons_of_mem _ hd)
    simp only [portTableAfter, List.foldl_cons]
    exact ih _ hrest (LimitPortNumber_isByteTable c.2 hb) (LimitPortNumber_nodup hc1 hnd)

/-- The core of the index contract: on a duplicate-free byte table, an 8-bit value comes back
as the position at which the resulting table holds it. -/
theorem LimitPortNumber_index_core {w p : Nat} {ports : List Nat} (hw : 8 ≤ w)
    (hp : p < 2 ^ 8) (hb : IsByteTable ports) (hnd : ports.Nodup) :
    (LimitPortNumber w ports p).2 < (LimitPortNumber w ports p).1.length ∧
      (LimitPortNumber w ports p).1[(LimitPortNumber w ports p).2]? = some p ∧
      findPortIndex p (LimitPortNumber w ports p).1 0 = some (LimitPortNumber w ports p).2 := by
  have hpow : 2 ^ 8 ≤ 2 ^ w := Nat.pow_le_pow_right (by norm_num) hw
  have hlen : ports.length ≤ 256 := length_le_of_nodup_bytes hb hnd
  cases hf : findPortIndex p ports 0 with
  | some i =>
    obtain ⟨_, h2, h3, _⟩ := findPortIndex_eq_some hf
    simp only [Nat.sub_zero] at h2 h3
    have hi : i % 2 ^ w = i := Nat.mod_eq_of_lt (by omega)
    rw [LimitPortNumber_of_hit hf]
    simp only [hi]
    exact ⟨h2, h3, hf⟩
  | none =>
    have hmem : p ∉ ports := findPortIndex_eq_none.mp hf
    have hlt : ports.length < 256 := length_lt_of_nodup_bytes_not_mem hb hnd hp hmem
    have hi : ports.length % 2 ^ w = ports.length := Nat.mod_eq_of_lt (by omega)
    have hmod : p % 2 ^ 8 = p := Nat.mod_eq_of_lt hp
    rw [LimitPortNumber_of_miss hf]
    simp only [hi, hmod]
    refine ⟨by simp, by simp, ?_⟩
    simpa using findPortIndex_append_self hf

/-- Calls with a `T` wider than a byte and a value that is not a byte do not keep the table
duplicate-free: `LimitPortNumber<uint32_t>` on 256, twice, pushes `(uint8_t) 256 = 0` twice. -/
theorem portTableAfter_wide_value_duplicates :
    portTableAfter [] [(32, 256), (32, 256)] = [0, 0] := by decide

/-! ## Theorems: the port-number table -/

/-- C1. For every 8-bit port value `p`, every unsigned `T` of at least 8 bits and every table
of bytes without duplicate entries, after the non-const `LimitPortNumber` the rewritten number
is a valid index into the resulting table, the entry at that index is `p`, and the number is
the very position at which the search loop finds `p` in the resulting table (so the index has
not wrapped around). In particular this holds for every table built from the empty table by
`LimitPortNumber` calls with 8-bit values. -/
theorem LimitPortNumber_index_valid (w p : Nat) (hw : 8 ≤ w) (hp : p < 2 ^ 8) :
    (∀ ports : List Nat, IsByteTable ports → ports.Nodup →
      (LimitPortNumber w ports p).2 < (LimitPortNumber w ports p).1.length ∧
      (LimitPortNumber w ports p).1[(LimitPortNumber w ports p).2]? = some p ∧
      findPortIndex p (LimitPortNumber w ports p).1 0 = some (LimitPortNumber w ports p).2) ∧
    (∀ calls : List (Nat × Nat), (∀ c ∈ calls, c.2 < 2 ^ 8) →
      (LimitPortNumber w (portTableAfter [] calls) p).2 <
        (LimitPortNumber w (portTableAfter [] calls) p).1.length ∧
      (LimitPortNumber w (portTableAfter [] calls) p).1[
        (LimitPortNumber w (portTableAfter [] calls) p).2]? = some p ∧
      findPortIndex p (LimitPortNumber w (portTableAfter [] calls) p).1 0 =
        some (LimitPortNumber w (portTableAfter [] calls) p).2) := by
  refine ⟨fun ports hb hnd => LimitPortNumber_index_core hw hp hb hnd, fun calls hc => ?_⟩
  have hinv := portTableAfter_invariant calls [] hc (by intro x hx; simp at hx) List.nodup_nil
  exact LimitPortNumber_index_core hw hp hinv.1 hinv.2

/-- C1, at `T = uint8_t`, value 9: on the table `[4, 9]` the number becomes 1, and on the
table built by the calls 4, 9, 4 the same. -/
theorem LimitPortNumber_index_valid_witness :
    ((LimitPortNumber 8 [4, 9] 9).2 < (LimitPortNumber 8 [4, 9] 9).1.length ∧
      (LimitPortNumber 8 [4, 9] 9).1[(LimitPortNumber 8 [4, 9] 9).2]? = some 9 ∧
      findPortIndex 9 (LimitPortNumber 8 [4, 9] 9).1 0 = some (LimitPortNumber 8 [4, 9] 9).2) ∧
    LimitPortNumber 8 [4, 9] 9 = ([4, 9], 1) ∧
    LimitPortNumber 8 [4] 9 = ([4, 9], 1) :=
  ⟨(LimitPortNumber_index_valid 8 9 (by decide) (by decide)).1 [4, 9] (by decide) (by decide),
    by decide, by decide⟩

/-- C2. The port table stays duplicate-free: for every 8-bit port value, a table of pairwise
distinct entries is still one after the non-const `LimitPortNumber`; hence every table
reached from the empty table by `LimitPortNumber` calls with 8-bit values has pairwise
distinct entries, and at most 256 of them. -/
theorem LimitPortNumber_preserves_nodup (w p : Nat) (ports : List Nat) (hp : p < 2 ^ 8)
    (hnd : ports.Nodup) :
    (LimitPortNumber w ports p).1.Nodup ∧
    (∀ calls : List (Nat × Nat), (∀ c ∈ calls, c.2 < 2 ^ 8) →
      (portTableAfter [] calls).Nodup ∧ (portTableAfter [] calls).length ≤ 256) := by
  refine ⟨LimitPortNumber_nodup hp hnd, fun calls hc => ?_⟩
  have hinv := portTableAfter_invariant calls [] hc (by intro x hx; simp at hx) List.nodup_nil
  exact ⟨hinv.2, length_le_of_nodup_bytes hinv.1 hinv.2⟩

/-- C2, at the table `[4, 9]` and the new value 200. -/
theorem LimitPortNumber_preserves_nodup_witness :
    [4, 9].Nodup ∧ (LimitPortNumber 8 [4, 9] 200).1 = [4, 9, 200] ∧
      (LimitPortNumber 8 [4, 9] 200).1.Nodup :=
  ⟨by decide, by decide,
    (LimitPortNumber_preserves_nodup 8 200 [4, 9] (by decide) (by decide)).1⟩

/-- C3, as stated, fails for `T = uint8_t` on a table whose first occurrence lies beyond
index 255: in `longTable` the value 1 occurs at index 256 and nowhere before it, and the call
rewrites the number to `(uint8_t) 256 = 0`, not to 256. -/
theorem LimitPortNumber_first_occurrence_wraps :
    longTable[256]? = some 1 ∧ (∀ k, k < 256 → longTable[k]? ≠ some 1) ∧
      LimitPortNumber 8 longTable 1 = (longTable, 0) ∧
      (LimitPortNumber 8 longTable 1).2 ≠ 256 := by
  refine ⟨by decide, ?_, by decide, by decide⟩
  intro k hk
  have hlen : k < (List.replicate 256 0).length := by rw [List.length_replicate]; exact hk
  rw [longTable, List.getElem?_append_left hlen, List.getElem?_replicate]
  simp [hk]

/-- C3, amended. For every port table, every port value and every unsigned `T` of `w` bits,
the non-const `LimitPortNumber` never changes or moves an existing entry: the table before
the call is a prefix of the table after it; when the value occurs in the table, the table is
unchanged and the number becomes the index of the first occurrence converted to `T` (that
index itself whenever it is below `2 ^ w`); when the value does not occur, the table grows by
exactly one entry, appended at the end. -/
theorem LimitPortNumber_frame (w : Nat) (ports : List Nat) (number : Nat) :
    ports <+: (LimitPortNumber w ports number).1 ∧
    (number ∈ ports →
      (LimitPortNumber w ports number).1 = ports ∧
      ∃ i, i < ports.length ∧ ports[i]? = some number ∧
        (∀ k, k < i → ports[k]? ≠ some number) ∧
        (LimitPortNumber w ports number).2 = i % 2 ^ w ∧
        (i < 2 ^ w → (LimitPortNumber w ports number).2 = i)) ∧
    (number ∉ ports →
      (LimitPortNumber w ports number).1 = ports ++ [number % 2 ^ 8] ∧
      (LimitPortNumber w ports number).1.length = ports.length + 1) := by
  cases hf : findPortIndex number ports 0 with
  | some i =>
    obtain ⟨_, h2, h3, h4⟩ := findPortIndex_eq_some hf
    simp only [Nat.sub_zero] at h2 h3 h4
    rw [LimitPortNumber_of_hit hf]
    refine ⟨List.prefix_refl _, fun _ => ⟨rfl, i, h2, h3, h4, rfl, fun hi => ?_⟩, fun hmem => ?_⟩
    · exact Nat.mod_eq_of_lt hi
    · exact absurd hf (by rw [findPortIndex_eq_none.mpr hmem]; simp)
  | none =>
    have hmem : number ∉ ports := findPortIndex_eq_none.mp hf
    rw [LimitPortNumber_of_miss hf]
    exact ⟨List.prefix_append _ _, fun h => absurd h hmem, fun _ => ⟨rfl, by simp⟩⟩

/-- C3 amended, at `T = uint8_t`: the value 9 is found in `[4, 9, 9]` at index 1, and the
value 5, which is not there, is appended. -/
theorem LimitPortNumber_frame_witness :
    LimitPortNumber 8 [4, 9, 9] 9 = ([4, 9, 9], 1) ∧
    (LimitPortNumber 8 [4, 9, 9] 5).1 = [4, 9, 9] ++ [5 % 2 ^ 8] ∧
    (LimitPortNumber 8 [4, 9, 9] 9).1 = [4, 9, 9] :=
  ⟨by decide,
    ((LimitPortNumber_frame 8 [4, 9, 9] 5).2.2 (by decide)).1,
    ((LimitPortNumber_frame 8 [4, 9, 9] 9).2.1 (by decide)).1⟩

/-- C10, as stated, fails for `T = uint8_t` on a table whose first occurrence lies beyond
index 255: in `longTableConst` the value 9 occurs at index 256 and nowhere before it, and the
const overload rewrites the number to `(uint8_t) 256 = 0`, not to 256. -/
theorem LimitPortNumberConst_first_occurrence_wraps :
    longTableConst[256]? = some 9 ∧ (∀ k, k < 256 → longTableConst[k]? ≠ some 9) ∧
      LimitPortNumberConst 8 longTableConst 9 = (longTableConst, 0) ∧
      (LimitPortNumberConst 8 longTableConst 9).2 ≠ 256 := by
  refine ⟨by decide, ?_, by decide, by decide⟩
  intro k hk
  have hlen : k < (List.replicate 256 7).length := by rw [List.length_replicate]; exact hk
  rw [longTableConst, List.getElem?_append_left hlen, List.getElem?_replicate]
  simp [hk]

/-- C10, amended. The const overload of `LimitPortNumber` is the lookup-only restriction of
the non-const overload: for every port table, port value and unsigned `T` of `w` bits it
leaves the table unchanged; when the value occurs in the table it rewrites the number to the
same value as the non-const overload does, namely the index of the first occurrence converted
to `T` (that index itself whenever it is below `2 ^ w`), and the two overloads then agree on
the table as well; when the value does not occur it leaves the number unchanged. -/
theorem LimitPortNumberConst_lookup_only (w : Nat) (ports : List Nat) (number : Nat) :
    (LimitPortNumberConst w ports number).1 = ports ∧
    (number ∈ ports →
      LimitPortNumberConst w ports number = LimitPortNumber w ports number ∧
      ∃ i, i < ports.length ∧ ports[i]? = some number ∧
        (∀ k, k < i → ports[k]? ≠ some number) ∧
        (LimitPortNumberConst w ports number).2 = i % 2 ^ w ∧
        (i < 2 ^ w → (LimitPortNumberConst w ports number).2 = i)) ∧
    (number ∉ ports → (LimitPortNumberConst w ports number).2 = number) := by
  cases hf : findPortIndex number ports 0 with
  | some i =>
    obtain ⟨_, h2, h3, h4⟩ := findPortIndex_eq_some hf
    simp only [Nat.sub_zero] at h2 h3 h4
    have hc : LimitPortNumberConst w ports number = (ports, i % 2 ^ w) := by
      simp [LimitPortNumberConst, hf]
    rw [hc, LimitPortNumber_of_hit hf]
    refine ⟨rfl, fun _ => ⟨rfl, i, h2, h3, h4, rfl, fun hi => Nat.mod_eq_of_lt hi⟩,
      fun hmem => ?_⟩
    exact absurd hf (by rw [findPortIndex_eq_none.mpr hmem]; simp)
  | none =>
    have hmem : number ∉ ports := findPortIndex_eq_none.mp hf
    have hc : LimitPortNumberConst w ports number = (ports, number) := by
      simp [LimitPortNumberConst, hf]
    rw [hc]
    exact ⟨rfl, fun h => absurd h hmem, fun _ => rfl⟩

/-- C10 amended, at `T = uint8_t`: the value 9 is looked up in `[4, 9, 9]` at index 1 by both
overloads, and the value 5, which is not there, stays 5. -/
theorem LimitPortNumberConst_lookup_only_witness :
    LimitPortNumberConst 8 [4, 9, 9] 9 = LimitPortNumber 8 [4, 9, 9] 9 ∧
    LimitPortNumberConst 8 [4, 9, 9] 9 = ([4, 9, 9], 1) ∧
    (LimitPortNumberConst 8 [4, 9, 9] 5).2 = 5 :=
  ⟨((LimitPortNumberConst_lookup_only 8 [4, 9, 9] 9).2.1 (by decide)).1,
    by decide,
    (LimitPortNumberConst_lookup_only 8 [4, 9, 9] 5).2.2 (by decide)⟩

/-! ## Theorems: variable-length quantities -/

/-- Masking and testing the continuation bit of a byte, in arithmetic terms. -/
theorem byte_bits : ∀ b, b < 256 →
    (b &&& 0x7F = b % 128 ∧ ((b &&& 0x80 = 0) ↔ b < 128)) := by decide

theorem group_or_continuation : ∀ g, g < 128 → g ||| 0x80 = g + 128 := by decide

theorem group_lt (x : Nat) : x &&& 0x7F < 128 := by
  have h := Nat.and_pow_two_sub_one_eq_mod x 7
  norm_num at h
  rw [h]
  exact Nat.mod_lt _ (by norm_num)

theorem group_eq_mod (x : Nat) : x &&& 0x7F = x % 128 := by
  have h := Nat.and_pow_two_sub_one_eq_mod x 7
  norm_num at h
  exact h

theorem shift_or_group (value g : Nat) (hg : g < 128) : (value <<< 7) ||| g = value * 128 + g := by
  rw [Nat.shiftLeft_eq]
  have h := Nat.mul_add_lt_is_or (i := 7) (b := g) (by norm_num; exact hg) value
  norm_num at h ⊢
  rw [Nat.mul_comm value 128, ← h]

/-- The reader takes a byte without continuation bit as the last group. -/
theorem decode_last (value g : Nat) (rest : List Nat) (hg : g < 128) :
    decodeVariableLengthQuantity value (g :: rest) = some (value * 128 + g, rest) := by
  have hb := byte_bits g (by omega)
  have hm : g % 128 = g := Nat.mod_eq_of_lt hg
  simp only [decodeVariableLengthQuantity, hb.1, hm, hb.2.mpr hg, if_true,
    shift_or_group value g hg]

/-- The reader takes a byte with continuation bit as one more group and goes on. -/
theorem decode_continue (value g : Nat) (rest : List Nat) (hg : g < 128) :
    decodeVariableLengthQuantity value ((g ||| 0x80) :: rest) =
      decodeVariableLengthQuantity (value * 128 + g) rest := by
  rw [group_or_continuation g hg]
  have hb := byte_bits (g + 128) (by omega)
  have hm : (g + 128) % 128 = g := by omega
  have hne : ¬ ((g + 128) &&& 0x80 = 0) := by
    rw [hb.2]; omega
  rw [decodeVariableLengthQuantity]
  simp only [hb.1, hm, hne, if_false, shift_or_group value g hg]

theorem vlqByteCount_cases (v : Nat) (hv : v ≤ 0x0FFFFFFF) :
    (vlqByteCount v = 1 ∧ v < 2 ^ 7) ∨ (vlqByteCount v = 2 ∧ 2 ^ 7 ≤ v ∧ v < 2 ^ 14) ∨
    (vlqByteCount v = 3 ∧ 2 ^ 14 ≤ v ∧ v < 2 ^ 21) ∨
    (vlqByteCount v = 4 ∧ 2 ^ 21 ≤ v ∧ v < 2 ^ 28) := by
  unfold vlqByteCount
  norm_num
  split_ifs <;> omega

/-- The bytes that the encoder appends, byte by byte. -/
theorem vlqBytes_getElem (v c i : Nat) (hi : i < ((List.range c).map (vlqByte v c)).length) :
    ((List.range c).map (vlqByte v c))[i] = vlqByte v c i := by
  simp

/-- Each appended byte is a byte, carries its 7-bit group of `v`, and has the continuation
bit exactly when it is not the last. -/
theorem vlqByte_spec (v c i : Nat) :
    vlqByte v c i < 256 ∧
    vlqByte v c i &&& 0x7F = (v >>> (7 * (c - 1 - i))) &&& 0x7F ∧
    (vlqByte v c i &&& 0x80 ≠ 0 ↔ i + 1 < c) := by
  have hg := group_lt (v >>> (7 * (c - 1 - i)))
  by_cases hlast : i + 1 < c
  · have hbyte : vlqByte v c i = (v >>> (7 * (c - 1 - i)) &&& 0x7F) + 128 := by
      simp only [vlqByte, hlast, if_true]
      exact group_or_continuation _ hg
    have hb := byte_bits (vlqByte v c i) (by omega)
    refine ⟨by omega, ?_, ?_⟩
    · rw [hb.1, hbyte]; omega
    · rw [Ne, hb.2]
      constructor
      · intro _; exact hlast
      · intro _; omega
  · have hbyte : vlqByte v c i = (v >>> (7 * (c - 1 - i)) &&& 0x7F) := by
      simp only [vlqByte, hlast, if_false]
    have hb := byte_bits (vlqByte v c i) (by omega)
    refine ⟨by omega, ?_, ?_⟩
    · rw [hb.1, hbyte]; omega
    · rw [Ne, hb.2]
      constructor
      · intro h; omega
      · intro h; exact absurd h hlast

/-- Reading back the bytes of the encoder gives the value, whatever follows them. -/
theorem decode_encode_bytes (v : Nat) (hv : v ≤ 0x0FFFFFFF) (rest : List Nat) :
    decodeVariableLengthQuantity 0
      ((List.range (vlqByteCount v)).map (vlqByte v (vlqByteCount v)) ++ rest) =
      some (v, rest) := by
  have h7 : ∀ x : Nat, x &&& 127 = x % 128 := group_eq_mod
  have hlt : ∀ x : Nat, x % 128 < 128 := fun x => Nat.mod_lt _ (by norm_num)
  rcases vlqByteCount_cases v hv with ⟨hc, h⟩ | ⟨hc, h⟩ | ⟨hc, h⟩ | ⟨hc, h⟩
  · simp only [hc, List.range_succ, List.range_zero, List.nil_append, List.map_cons,
      List.map_nil, List.cons_append, vlqByte]
    norm_num [Nat.shiftRight_eq_div_pow, h7]
    rw [decode_last _ _ _ (hlt _)]
    simp only [Option.some.injEq, Prod.mk.injEq, and_true]
    omega
  · simp only [hc, List.range_succ, List.range_zero, List.nil_append, List.map_cons,
      List.map_nil, List.cons_append, vlqByte, List.map_append]
    norm_num [Nat.shiftRight_eq_div_pow, h7]
    rw [decode_continue _ _ _ (hlt _), decode_last _ _ _ (hlt _)]
    simp only [Option.some.injEq, Prod.mk.injEq, and_true]
    omega
  · simp only [hc, List.range_succ, List.range_zero, List.nil_append, List.map_cons,
      List.map_nil, List.cons_append, vlqByte, List.map_append]
    norm_num [Nat.shiftRight_eq_div_pow, h7]
    rw [decode_continue _ _ _ (hlt _), decode_continue _ _ _ (hlt _),
      decode_last _ _ _ (hlt _)]
    simp only [Option.some.injEq, Prod.mk.injEq, and_true]
    omega
  · simp only [hc, List.range_succ, List.range_zero, List.nil_append, List.map_cons,
      List.map_nil, List.cons_append, vlqByte, List.map_append]
    norm_num [Nat.shiftRight_eq_div_pow, h7]
    rw [decode_continue _ _ _ (hlt _), decode_continue _ _ _ (hlt _),
      decode_continue _ _ _ (hlt _), decode_last _ _ _ (hlt _)]
    simp only [Option.some.injEq, Prod.mk.injEq, and_true]
    omega

/-- C4. For every value `v` with `v ≤ 0x0FFFFFFF`, `EncodeVariableLengthQuantity data v`
succeeds and its result is `data` followed by some bytes, so what was in `data` is unchanged.
The appended bytes are between 1 and 4 in number and as few as hold `v` in 7-bit groups;
byte `i` is a byte whose low 7 bits are the group `i` of `v`, most significant group first,
and it has bit `0x80` set exactly when it is not the last; reading the bytes back
(accumulating the low 7 bits of each byte until one has bit `0x80` clear) returns `v` and
stops right behind them. -/
theorem EncodeVariableLengthQuantity_roundtrip (data : List Nat) (v : Nat)
    (hv : v ≤ 0x0FFFFFFF) :
    ∃ bytes : List Nat,
      EncodeVariableLengthQuantity data v = some (data ++ bytes) ∧
      1 ≤ bytes.length ∧ bytes.length ≤ 4 ∧
      v < 2 ^ (7 * bytes.length) ∧
      (∀ n, 1 ≤ n → v < 2 ^ (7 * n) → bytes.length ≤ n) ∧
      (∀ i (hi : i < bytes.length),
        bytes[i] < 256 ∧
        bytes[i] &&& 0x7F = (v >>> (7 * (bytes.length - 1 - i))) &&& 0x7F ∧
        (bytes[i] &&& 0x80 ≠ 0 ↔ i + 1 < bytes.length)) ∧
      (∀ rest, decodeVariableLengthQuantity 0 (bytes ++ rest) = some (v, rest)) := by
  refine ⟨(List.range (vlqByteCount v)).map (vlqByte v (vlqByteCount v)), ?_, ?_, ?_, ?_, ?_,
    ?_, ?_⟩
  · have hnot : ¬ v > 0x0FFFFFFF := by omega
    simp only [EncodeVariableLengthQuantity, hnot, if_false]
  · rcases vlqByteCount_cases v hv with ⟨hc, _⟩ | ⟨hc, _⟩ | ⟨hc, _⟩ | ⟨hc, _⟩ <;>
      simp [hc]
  · rcases vlqByteCount_cases v hv with ⟨hc, _⟩ | ⟨hc, _⟩ | ⟨hc, _⟩ | ⟨hc, _⟩ <;>
      simp [hc]
  · rcases vlqByteCount_cases v hv with ⟨hc, h⟩ | ⟨hc, h⟩ | ⟨hc, h⟩ | ⟨hc, h⟩ <;>
      · simp only [List.length_map, List.length_range, hc]
        norm_num at h ⊢
        omega
  · intro n hn hvn
    simp only [List.length_map, List.length_range]
    by_contra hlt
    have hle : 7 * n ≤ 7 * (vlqByteCount v - 1) := by omega
    have hpow : 2 ^ (7 * n) ≤ 2 ^ (7 * (vlqByteCount v - 1)) :=
      Nat.pow_le_pow_right (by norm_num) hle
    rcases vlqByteCount_cases v hv with ⟨hc, h⟩ | ⟨hc, h⟩ | ⟨hc, h⟩ | ⟨hc, h⟩ <;>
      · rw [hc] at hpow hlt
        norm_num at hpow h
        omega
  · intro i hi
    rw [vlqBytes_getElem v (vlqByteCount v) i hi]
    simp only [List.length_map, List.length_range]
    exact vlqByte_spec v (vlqByteCount v) i
  · intro rest
    exact decode_encode_bytes v hv rest

/-- C4, at the value 128 appended to a buffer that already holds the byte `0x90`, and the
encodings of the eight boundary values 0, 127, 128, 16383, 16384, 2097151, 2097152 and
268435455, each read back to its value. -/
theorem EncodeVariableLengthQuantity_roundtrip_witness :
    (∃ bytes : List Nat,
      EncodeVariableLengthQuantity [0x90] 128 = some ([0x90] ++ bytes) ∧
      1 ≤ bytes.length ∧ bytes.length ≤ 4 ∧
      128 < 2 ^ (7 * bytes.length) ∧
      (∀ n, 1 ≤ n → 128 < 2 ^ (7 * n) → bytes.length ≤ n) ∧
      (∀ i (hi : i < bytes.length),
        bytes[i] < 256 ∧
        bytes[i] &&& 0x7F = (128 >>> (7 * (bytes.length - 1 - i))) &&& 0x7F ∧
        (bytes[i] &&& 0x80 ≠ 0 ↔ i + 1 < bytes.length)) ∧
      (∀ rest, decodeVariableLengthQuantity 0 (bytes ++ rest) = some (128, rest))) ∧
    EncodeVariableLengthQuantity [0x90] 128 = some [0x90, 0x81, 0x00] ∧
    [0, 127, 128, 16383, 16384, 2097151, 2097152, 268435455].map
        (EncodeVariableLengthQuantity []) =
      [some [0x00], some [0x7F], some [0x81, 0x00], some [0xFF, 0x7F],
        some [0x81, 0x80, 0x00], some [0xFF, 0xFF, 0x7F], some [0x81, 0x80, 0x80, 0x00],
        some [0xFF, 0xFF, 0xFF, 0x7F]] ∧
    [[0x00], [0x7F], [0x81, 0x00], [0xFF, 0x7F], [0x81, 0x80, 0x00], [0xFF, 0xFF, 0x7F],
        [0x81, 0x80, 0x80, 0x00], [0xFF, 0xFF, 0xFF, 0x7F]].map
        (decodeVariableLengthQuantity 0) =
      [some (0, []), some (127, []), some (128, []), some (16383, []), some (16384, []),
        some (2097151, []), some (2097152, []), some (268435455, [])] :=
  ⟨EncodeVariableLengthQuantity_roundtrip [0x90] 128 (by decide), by decide, by decide,
    by decide⟩

/-! ## Theorems: tick to millisecond conversion -/

/-- C6. A newly constructed `MIDIContainer` is empty and carries the documented defaults: it
has no tracks (`Size() == 0`), format 0 and time division 0, its device-name table has exactly
16 slots, each of them empty, and `GetExtraPercussionChannel()` returns `0xFFFFFFFF`. Its
other tables are empty as well. -/
theorem MIDIContainer_new_defaults (Range : Type) :
    (MIDIContainer.new Range).Size = 0 ∧
    (MIDIContainer.new Range)._Tracks = [] ∧
    (MIDIContainer.new Range)._Format = 0 ∧
    (MIDIContainer.new Range)._TimeDivision = 0 ∧
    (MIDIContainer.new Range)._DeviceNames.length = 16 ∧
    (∀ slot ∈ (MIDIContainer.new Range)._DeviceNames, slot = []) ∧
    (MIDIContainer.new Range).GetExtraPercussionChannel = 0xFFFFFFFF ∧
    (MIDIContainer.new Range)._PortNumbers = [] ∧
    (MIDIContainer.new Range)._TempoMaps = [] ∧
    (MIDIContainer.new Range)._ChannelMask = [] ∧
    (MIDIContainer.new Range)._EndTimestamps = [] ∧
    (MIDIContainer.new Range)._Loop = [] ∧
    (MIDIContainer.new Range)._ExtraMetaData = MIDIMetaData.mk [] [] := by
  refine ⟨rfl, rfl, rfl, rfl, rfl, ?_, ?_, rfl, rfl, rfl, rfl, rfl, rfl⟩
  · intro slot hslot
    simp only [MIDIContainer.new, vectorResize, List.take_nil, List.nil_append,
      List.length_nil, Nat.sub_zero] at hslot
    exact List.eq_of_mem_replicate hslot
  · simp only [MIDIContainer.GetExtraPercussionChannel, MIDIContainer.new, complement32]
    norm_num

/-- The step of the flag test: switching on `g` sets the bit of `f` exactly when `f` is `g`,
and keeps the word within the three flag bits. -/
theorem cleanFlag_or_step (word : Nat) (hword : word < 8) (f g : CleanFlag) :
    (g.value ||| word) < 8 ∧
    hasCleanFlag (g.value ||| word) f = (decide (f = g) || hasCleanFlag word f) := by
  interval_cases word <;> cases f <;> cases g <;> decide

theorem cleanFlagsOf_lt (flags : List CleanFlag) : cleanFlagsOf flags < 8 := by
  induction flags with
  | nil => simp [cleanFlagsOf]
  | cons g rest ih => exact (cleanFlag_or_step _ ih g g).1

/-- C7. The three clean flags are independently toggleable: `CleanFlagEMIDI`,
`CleanFlagInstruments` and `CleanFlagBanks` are the non-zero single-bit masks 1, 2 and 4,
pairwise disjoint, and for every collection of flags and every flag `f`, the bitwise OR of the
collection has the bit of `f` set if and only if `f` is in the collection. -/
theorem cleanFlags_independent :
    (CleanFlag.CleanFlagEMIDI.value = 2 ^ 0 ∧ CleanFlag.CleanFlagInstruments.value = 2 ^ 1 ∧
      CleanFlag.CleanFlagBanks.value = 2 ^ 2) ∧
    (∀ f : CleanFlag, f.value ≠ 0) ∧
    (CleanFlag.CleanFlagEMIDI.value &&& CleanFlag.CleanFlagInstruments.value = 0 ∧
      CleanFlag.CleanFlagEMIDI.value &&& CleanFlag.CleanFlagBanks.value = 0 ∧
      CleanFlag.CleanFlagInstruments.value &&& CleanFlag.CleanFlagBanks.value = 0) ∧
    (∀ (flags : List CleanFlag) (f : CleanFlag),
      hasCleanFlag (cleanFlagsOf flags) f = true ↔ f ∈ flags) := by
  refine ⟨by decide, fun f => by cases f <;> decide, by decide, fun flags f => ?_⟩
  induction flags with
  | nil => cases f <;> simp [cleanFlagsOf, hasCleanFlag]
  | cons g rest ih =>
    have hstep := (cleanFlag_or_step (cleanFlagsOf rest) (cleanFlagsOf_lt rest) f g).2
    have hunfold : cleanFlagsOf (g :: rest) = g.value ||| cleanFlagsOf rest := rfl
    rw [hunfold, hstep, Bool.or_eq_true, ih, List.mem_cons, decide_eq_true_eq]

/-- C8. For every `EventType` `t`, the status byte documented next to it equals
`0x80 + 0x10 * t` and is the value of the like-named `StatusCodes` enumerator (`Extended`
going with `SysEx`); it is a byte with a zero low nibble; and the mapping from event types to
status bytes is injective. -/
theorem EventType_status_byte :
    (∀ t : EventType,
      t.documentedStatus = 0x80 + 0x10 * t.value ∧
      t.documentedStatus = t.statusCode.value ∧
      t.documentedStatus < 256 ∧
      t.documentedStatus &&& 0x0F = 0) ∧
    Function.Injective EventType.documentedStatus ∧
    EventType.allTypes.map EventType.statusCode =
      [StatusCodes.NoteOff, StatusCodes.NoteOn, StatusCodes.PolyphonicAftertouch,
        StatusCodes.ControlChange, StatusCodes.ProgramChange,
        StatusCodes.ChannelPressureAftertouch, StatusCodes.PitchBendChange,
        StatusCodes.SysEx] ∧
    EventType.allTypes.map EventType.documentedStatus =
      [0x80, 0x90, 0xA0, 0xB0, 0xC0, 0xD0, 0xE0, 0xF0] := by
  refine ⟨fun t => by cases t <;> decide, ?_, by decide, by decide⟩
  intro a b hab
  cases a <;> cases b <;> first | rfl | (exact absurd hab (by decide))

/-! ## Theorems: copying a metadata item -/

/-- C9 (the code departs from the claim). The overloads taking a const reference copy all
three fields. The overloads taking a non-const reference copy `Timestamp` only: assigning the
item `(5, "title", "Song")` to a default-constructed item, or copy-constructing from it,
yields `(5, "", "")`, and whatever a self-assignment leaves in a string, `Name` and `Value` of
the result do not depend on the source item. -/
theorem MIDIMetaDataItem_nonconst_copy_drops_strings :
    (∀ self other : MIDIMetaDataItem, MIDIMetaDataItem.assignConst self other = other) ∧
    (∀ item : MIDIMetaDataItem, MIDIMetaDataItem.copyConst item = item) ∧
    MIDIMetaDataItem.assignNonConst id (MIDIMetaDataItem.mk 0 "" "")
        (MIDIMetaDataItem.mk 5 "title" "Song") = MIDIMetaDataItem.mk 5 "" "" ∧
    MIDIMetaDataItem.copyNonConst id 0 (MIDIMetaDataItem.mk 5 "title" "Song") =
        MIDIMetaDataItem.mk 5 "" "" ∧
    MIDIMetaDataItem.assignNonConst id (MIDIMetaDataItem.mk 0 "" "")
        (MIDIMetaDataItem.mk 5 "title" "Song") ≠ MIDIMetaDataItem.mk 5 "title" "Song" ∧
    (∀ (selfAssign : String → String) (self a b : MIDIMetaDataItem),
      (MIDIMetaDataItem.assignNonConst selfAssign self a).Name =
        (MIDIMetaDataItem.assignNonConst selfAssign self b).Name ∧
      (MIDIMetaDataItem.assignNonConst selfAssign self a).Value =
        (MIDIMetaDataItem.assignNonConst selfAssign self b).Value) := by
  refine ⟨fun _ _ => rfl, fun _ => rfl, rfl, rfl, by decide, fun _ _ _ _ => ⟨rfl, rfl⟩⟩

end MIDIProc
